import Mathlib

/-!
Verification of the elbencho worker execution engine against its specification.

The development shallowly embeds the worker coordination code of `Worker.cpp`
(`incNumWorkersDone`, `incNumWorkersDoneWithError`, `checkInterruptionRequest`,
`applyNumaBinding`, `waitForNextPhase`), the per-worker range partitioning of
`LocalWorker`, and the mounted-device safety check of `test_blockdev_rand.sh`.

All operations on `WorkersSharedData` are performed under its mutex in the
source (`std::unique_lock` scoped at the top of each function), so each whole
operation is modelled as one atomic state transition; a concurrent phase is a
finite interleaving, i.e. a list of such transitions applied in some order.
-/

/- ===== Interruption and phase waiting (Worker.cpp) ===== -/

/-- The error conditions a `Worker` member function can raise:
`WorkerInterruptedException` from the cooperative-cancellation checkpoint, and
`WorkerException` for fatal worker-level errors such as a failed NUMA binding. -/
inductive WorkerErr
  | interrupted
  | workerError
deriving Repr, DecidableEq

/-- `Worker::checkInterruptionRequest`: throws `WorkerInterruptedException` when
`isInterruptionRequested` is set, otherwise returns normally. It reads only the
flag and writes nothing, which the embedding reflects by taking just the flag
and producing no state. -/
def checkInterruptionRequest (isInterruptionRequested : Bool) : Except WorkerErr Unit :=
  if isInterruptionRequested then .error .interrupted else .ok ()

/-- One observation of the shared state made by a waiting worker while it holds
the mutex: the value of `workersSharedData->currentBenchID` (the phase
identifier, an opaque token modelled as a `Nat`) and the worker's
`isInterruptionRequested` flag. The first observation is made right after
`waitForNextPhase` acquires the lock; each further observation is made after
one `condition.wait` wakeup. -/
structure PhaseObs where
  currentBenchID : Nat
  isInterruptionRequested : Bool
deriving Repr, DecidableEq

/-- Outcome of `Worker::waitForNextPhase` on a finite observation trace:
it returned normally, it threw `WorkerInterruptedException`, or it consumed
every observation while still blocked on the condition variable. -/
inductive WaitOutcome
  | returned
  | interrupted
  | stillBlocked
deriving Repr, DecidableEq

/-- `Worker::waitForNextPhase(oldBenchID)`: after acquiring the lock it calls
`checkInterruptionRequest`, then `while (oldBenchID == currentBenchID)` it
waits on the condition variable and calls `checkInterruptionRequest` again
after the wakeup. The embedding consumes one `PhaseObs` per lock-held
observation, checking interruption before the phase-identifier comparison at
every step, exactly as in the source. -/
def waitForNextPhase (oldBenchID : Nat) : List PhaseObs → WaitOutcome
  | [] => .stillBlocked
  | o :: rest =>
    match checkInterruptionRequest o.isInterruptionRequested with
    | .error _ => .interrupted
    | .ok _ =>
      if oldBenchID = o.currentBenchID then waitForNextPhase oldBenchID rest
      else .returned

/-- A stretch of observations during which `waitForNextPhase(oldBenchID)` keeps
blocking: no interruption requested and the phase identifier still equals
`oldBenchID`. -/
def keepsWaiting (oldBenchID : Nat) (l : List PhaseObs) : Prop :=
  ∀ o ∈ l, o.isInterruptionRequested = false ∧ o.currentBenchID = oldBenchID

instance (oldBenchID : Nat) (l : List PhaseObs) : Decidable (keepsWaiting oldBenchID l) :=
  List.decidableBAll _ l

theorem waitForNextPhase_cons (oldBenchID : Nat) (o : PhaseObs) (rest : List PhaseObs) :
    waitForNextPhase oldBenchID (o :: rest) =
      if o.isInterruptionRequested then .interrupted
      else if oldBenchID = o.currentBenchID then waitForNextPhase oldBenchID rest
      else .returned := by
  cases h : o.isInterruptionRequested <;>
    simp [waitForNextPhase, checkInterruptionRequest, h]

theorem keepsWaiting_cons (oldBenchID : Nat) (o : PhaseObs) (l : List PhaseObs) :
    keepsWaiting oldBenchID (o :: l) ↔
      (o.isInterruptionRequested = false ∧ o.currentBenchID = oldBenchID) ∧
        keepsWaiting oldBenchID l := by
  simp [keepsWaiting]

/-- Decomposing an existential over a split of a cons list by the length of the
prefix: either the prefix is empty and the distinguished element is the head,
or the head is absorbed into the prefix. -/
theorem exists_split_cons {α : Type} (a : α) (l : List α)
    (P : List α → Prop) (Q : α → Prop) :
    (∃ pre o post, a :: l = pre ++ o :: post ∧ P pre ∧ Q o) ↔
      ((P [] ∧ Q a) ∨ ∃ pre o post, l = pre ++ o :: post ∧ P (a :: pre) ∧ Q o) := by
  constructor
  · rintro ⟨pre, o, post, heq, hP, hQ⟩
    cases pre with
    | nil =>
      simp only [List.nil_append, List.cons.injEq] at heq
      left
      exact ⟨hP, heq.1 ▸ hQ⟩
    | cons x pre' =>
      simp only [List.cons_append, List.cons.injEq] at heq
      right
      exact ⟨pre', o, post, heq.2, heq.1 ▸ hP, hQ⟩
  · rintro (⟨hP, hQ⟩ | ⟨pre, o, post, heq, hP, hQ⟩)
    · exact ⟨[], a, l, rfl, hP, hQ⟩
    · exact ⟨a :: pre, o, post, by rw [heq]; rfl, hP, hQ⟩

/-- C2: `waitForNextPhase(oldPhaseID)` returns normally exactly when, after a
(possibly empty) stretch of observations on which it keeps blocking (flag
clear, identifier unchanged), it observes the flag clear and the identifier
different from `oldBenchID`; it raises the Interrupted condition exactly when
such a blocking stretch is followed by an observation with the flag set
(whether at entry or after any wakeup); and it is still blocked exactly when
every observation so far keeps it waiting (spurious wakeups re-block). -/
theorem waitForNextPhase_spec : ∀ (oldBenchID : Nat) (trace : List PhaseObs),
    (waitForNextPhase oldBenchID trace = .returned ↔
      ∃ pre o post, trace = pre ++ o :: post ∧ keepsWaiting oldBenchID pre ∧
        (o.isInterruptionRequested = false ∧ o.currentBenchID ≠ oldBenchID)) ∧
    (waitForNextPhase oldBenchID trace = .interrupted ↔
      ∃ pre o post, trace = pre ++ o :: post ∧ keepsWaiting oldBenchID pre ∧
        o.isInterruptionRequested = true) ∧
    (waitForNextPhase oldBenchID trace = .stillBlocked ↔
      keepsWaiting oldBenchID trace) := by
  intro oldBenchID trace
  induction trace with
  | nil =>
    refine ⟨?_, ?_, ?_⟩
    · simp [waitForNextPhase, keepsWaiting]
    · simp [waitForNextPhase, keepsWaiting]
    · simp [waitForNextPhase, keepsWaiting]
  | cons o rest ih =>
    obtain ⟨ihr, ihi, ihb⟩ := ih
    have hsplitR := exists_split_cons o rest (keepsWaiting oldBenchID)
      (fun x : PhaseObs => x.isInterruptionRequested = false ∧ x.currentBenchID ≠ oldBenchID)
    have hsplitI := exists_split_cons o rest (keepsWaiting oldBenchID)
      (fun x : PhaseObs => x.isInterruptionRequested = true)
    simp only [] at hsplitR hsplitI
    rw [waitForNextPhase_cons]
    by_cases hintr : o.isInterruptionRequested = true
    · simp only [hintr, if_true]
      refine ⟨?_, ?_, ?_⟩
      · rw [hsplitR]
        simp [hintr, keepsWaiting_cons]
      · rw [hsplitI]
        simp [hintr, keepsWaiting]
      · simp [keepsWaiting_cons, hintr]
    · replace hintr : o.isInterruptionRequested = false := by
        cases h : o.isInterruptionRequested
        · rfl
        · exact absurd h hintr
      simp only [hintr, Bool.false_eq_true, if_false]
      by_cases hid : oldBenchID = o.currentBenchID
      · simp only [if_pos hid]
        refine ⟨?_, ?_, ?_⟩
        · rw [hsplitR, ihr]
          simp [hintr, ← hid, keepsWaiting_cons]
        · rw [hsplitI, ihi]
          simp [hintr, ← hid, keepsWaiting_cons]
        · rw [keepsWaiting_cons, ihb]
          simp [hintr, ← hid]
      · simp only [if_neg hid]
        refine ⟨?_, ?_, ?_⟩
        · rw [hsplitR]
          have hne : o.currentBenchID ≠ oldBenchID := fun h => hid h.symm
          simp [hintr, hne, keepsWaiting]
        · rw [hsplitI]
          have hne : ¬o.currentBenchID = oldBenchID := fun h => hid h.symm
          simp [hintr, hne, keepsWaiting_cons]
        · have hne : ¬o.currentBenchID = oldBenchID := fun h => hid h.symm
          simp [keepsWaiting_cons, hne]

/-- C9: in `waitForNextPhase` the interruption check precedes the
phase-identifier comparison, so a set interruption flag at an observation makes
the call raise the Interrupted condition regardless of whether the observed
phase identifier already differs from `oldBenchID`. -/
theorem waitForNextPhase_interruption_precedence (oldBenchID : Nat) (o : PhaseObs)
    (rest : List PhaseObs) (hintr : o.isInterruptionRequested = true) :
    waitForNextPhase oldBenchID (o :: rest) = .interrupted := by
  rw [waitForNextPhase_cons, hintr, if_pos rfl]

/-- Witnessing C9 at a concrete input where the phase identifier has already
changed (`1 ≠ 0`): interruption still takes precedence and the wait raises the
Interrupted condition instead of returning normally. -/
theorem waitForNextPhase_interruption_precedence_witness :
    (1 : Nat) ≠ 0 ∧ waitForNextPhase 0 [⟨1, true⟩] = .interrupted :=
  ⟨by decide, waitForNextPhase_interruption_precedence 0 ⟨1, true⟩ [] rfl⟩

/-- C5: `checkInterruptionRequest` raises the Interrupted condition exactly
when the interruption flag is set, and returns normally (producing only the
unit value, touching no state) exactly when the flag is clear. -/
theorem checkInterruptionRequest_spec : ∀ isInterruptionRequested : Bool,
    (checkInterruptionRequest isInterruptionRequested = .error .interrupted ↔
      isInterruptionRequested = true) ∧
    (checkInterruptionRequest isInterruptionRequested = .ok () ↔
      isInterruptionRequested = false) := by
  intro b
  cases b <;> simp [checkInterruptionRequest]

/- ===== Phase completion counters and stonewall capture (Worker.cpp) ===== -/

/-- The per-worker state the completion protocol touches: whether the worker
has already finished the current phase (reported completion, with or without
error), its phase-scoped stonewall latch `stoneWallTriggered`, and whether a
`StoneWallStats` snapshot has been captured for it this phase. At phase start
all three are reset to `false`. -/
structure WorkerPhaseSt where
  phaseDone : Bool
  stoneWallTriggered : Bool
  hasStoneWallStats : Bool
deriving Repr, DecidableEq

instance : Inhabited WorkerPhaseSt := ⟨⟨false, false, false⟩⟩

/-- The mutex-protected completion counters of `WorkersSharedData`. -/
structure WorkersSharedData where
  numWorkersDone : Nat
  numWorkersDoneWithError : Nat
deriving Repr, DecidableEq

/-- Modelled from the spec: `WorkersSharedData::incNumWorkersDoneUnlocked` is
declared but its body is not under src/; per the spec it increments the
completion counter (caller holds the mutex). -/
def WorkersSharedData.incNumWorkersDoneUnlocked (s : WorkersSharedData) : WorkersSharedData :=
  { s with numWorkersDone := s.numWorkersDone + 1 }

/-- Modelled from the spec: `WorkersSharedData::incNumWorkersDoneWithError` is
declared but its body is not under src/; per the spec it records an error
completion by incrementing the error-completion counter (locking internally). -/
def WorkersSharedData.incNumWorkersDoneWithError (s : WorkersSharedData) : WorkersSharedData :=
  { s with numWorkersDoneWithError := s.numWorkersDoneWithError + 1 }

/-- Modelled from the spec: `Worker::createStoneWallStats` is called from
`incNumWorkersDone` but its body is not under src/. Per the spec,
`StoneWallStats` is a snapshot captured "for every worker still running",
"created lazily on first completion per phase, never before, never twice": the
call is a no-op for a worker whose phase-scoped latch is already set or that
has already finished the phase; otherwise it sets the latch and records the
snapshot. -/
def createStoneWallStats (w : WorkerPhaseSt) : WorkerPhaseSt :=
  if w.stoneWallTriggered || w.phaseDone then w
  else { w with stoneWallTriggered := true, hasStoneWallStats := true }

/-- The worker pool's view of one phase: the shared counters plus the worker
table `workerVec` (rank = position, as assigned by `prepareThreads`). -/
structure PoolState where
  shared : WorkersSharedData
  workerVec : List WorkerPhaseSt
deriving Repr, DecidableEq

/-- Mark the worker at position `rank` as having finished the current phase
(it has just reported completion and is no longer running). -/
def setPhaseDone : List WorkerPhaseSt → Nat → List WorkerPhaseSt
  | [], _ => []
  | w :: ws, 0 => { w with phaseDone := true } :: ws
  | w :: ws, n + 1 => w :: setPhaseDone ws n

/-- `Worker::incNumWorkersDone`, executed as one atomic transition because the
whole body runs under `workersSharedData->mutex`: the caller (at `callerRank`,
no longer running) increments the done counter via
`incNumWorkersDoneUnlocked`, and if the counter now equals exactly 1 and the
caller's `stoneWallTriggered` latch is not set, it calls
`createStoneWallStats` on every worker of `workerVec`. The returned `Bool`
reports whether the guarded capture loop ran. -/
def incNumWorkersDone (s : PoolState) (callerRank : Nat) : PoolState × Bool :=
  let ws := setPhaseDone s.workerVec callerRank
  let sh := s.shared.incNumWorkersDoneUnlocked
  let fired := sh.numWorkersDone == 1 && !(ws.getD callerRank default).stoneWallTriggered
  ({ shared := sh, workerVec := if fired then ws.map createStoneWallStats else ws }, fired)

/-- `Worker::incNumWorkersDoneWithError`: the caller (at `callerRank`, no
longer running) records an error completion through
`WorkersSharedData::incNumWorkersDoneWithError`; nothing else is touched. -/
def incNumWorkersDoneWithError (s : PoolState) (callerRank : Nat) : PoolState :=
  { shared := s.shared.incNumWorkersDoneWithError,
    workerVec := setPhaseDone s.workerVec callerRank }

/-- One completion event of a phase: some worker reports done, or done with
error. The mutex serializes the calls, so a phase execution is a list of these
events in the order the lock was acquired. -/
inductive CompletionEv
  | done (rank : Nat)
  | doneWithError (rank : Nat)
deriving Repr, DecidableEq

/-- Apply one completion event; the `Nat` component counts how many times the
stonewall capture loop of `incNumWorkersDone` has run this phase. -/
def completionStep (sc : PoolState × Nat) (ev : CompletionEv) : PoolState × Nat :=
  match ev with
  | .done r =>
    let res := incNumWorkersDone sc.1 r
    (res.1, sc.2 + if res.2 then 1 else 0)
  | .doneWithError r => (incNumWorkersDoneWithError sc.1 r, sc.2)

/-- The pool state right after `startNextPhase`: done/error counters reset to
zero and every worker's phase-scoped fields reset. -/
def phaseStartState (numWorkers : Nat) : PoolState :=
  { shared := ⟨0, 0⟩, workerVec := List.replicate numWorkers default }

/-- Run a whole phase: from the phase-start state, apply the completion events
in lock-acquisition order; also yields the capture-loop count. -/
def runPhase (numWorkers : Nat) (evs : List CompletionEv) : PoolState × Nat :=
  evs.foldl completionStep (phaseStartState numWorkers, 0)

/-- The number of `incNumWorkersDone` calls in an event list. -/
def countDone (evs : List CompletionEv) : Nat :=
  evs.countP fun ev => match ev with
    | .done _ => true
    | .doneWithError _ => false

/-- The number of completion calls (of either kind) the worker at `rank` makes
in an event list. -/
def countCallsBy (rank : Nat) (evs : List CompletionEv) : Nat :=
  evs.countP fun ev => match ev with
    | .done r => r == rank
    | .doneWithError r => r == rank

/-- Modelled from the spec: `WorkerManager::checkWorkersDone` is declared in
WorkerManager.h but its body is not under src/; per the spec it reports
whether `numWorkersDone == numWorkers`. -/
def checkWorkersDone (numWorkers : Nat) (s : PoolState) : Bool :=
  s.shared.numWorkersDone == numWorkers

theorem setPhaseDone_length : ∀ (ws : List WorkerPhaseSt) (r : Nat),
    (setPhaseDone ws r).length = ws.length := by
  intro ws
  induction ws with
  | nil => intro r; cases r <;> rfl
  | cons w ws ih =>
    intro r
    cases r with
    | zero => rfl
    | succ r => simpa [setPhaseDone] using ih r

theorem setPhaseDone_latch : ∀ (ws : List WorkerPhaseSt) (r i : Nat),
    ((setPhaseDone ws r).getD i default).stoneWallTriggered =
      (ws.getD i default).stoneWallTriggered := by
  intro ws
  induction ws with
  | nil => intro r i; cases r <;> rfl
  | cons w ws ih =>
    intro r i
    cases r with
    | zero => cases i <;> rfl
    | succ r =>
      cases i with
      | zero => rfl
      | succ i => exact ih r i

theorem setPhaseDone_stats : ∀ (ws : List WorkerPhaseSt) (r i : Nat),
    ((setPhaseDone ws r).getD i default).hasStoneWallStats =
      (ws.getD i default).hasStoneWallStats := by
  intro ws
  induction ws with
  | nil => intro r i; cases r <;> rfl
  | cons w ws ih =>
    intro r i
    cases r with
    | zero => cases i <;> rfl
    | succ r =>
      cases i with
      | zero => rfl
      | succ i => exact ih r i

theorem setPhaseDone_clear_mem : ∀ (ws : List WorkerPhaseSt) (r : Nat),
    (∀ w ∈ ws, w.stoneWallTriggered = false) →
      ∀ w ∈ setPhaseDone ws r, w.stoneWallTriggered = false := by
  intro ws
  induction ws with
  | nil => intro r h w hw; cases r <;> cases hw
  | cons w0 ws ih =>
    intro r h w hw
    cases r with
    | zero =>
      rcases List.mem_cons.mp hw with heq | hmem
      · subst heq; exact h w0 (List.mem_cons_self _ _)
      · exact h w (List.mem_cons_of_mem _ hmem)
    | succ r =>
      rcases List.mem_cons.mp hw with heq | hmem
      · subst heq; exact h w (List.mem_cons_self _ _)
      · exact ih r (fun x hx => h x (List.mem_cons_of_mem _ hx)) w hmem

theorem getD_of_length_le : ∀ (ws : List WorkerPhaseSt) (i : Nat),
    ws.length ≤ i → ws.getD i default = default := by
  intro ws
  induction ws with
  | nil => intro i _; cases i <;> rfl
  | cons w ws ih =>
    intro i hi
    cases i with
    | zero => exact absurd hi (by simp)
    | succ i => exact ih i (by simpa using hi)

theorem getD_mem : ∀ (ws : List WorkerPhaseSt) (i : Nat),
    i < ws.length → ws.getD i default ∈ ws := by
  intro ws
  induction ws with
  | nil => intro i hi; simp at hi
  | cons w ws ih =>
    intro i hi
    cases i with
    | zero => exact List.mem_cons_self _ _
    | succ i => exact List.mem_cons_of_mem _ (ih i (by simpa using hi))

theorem clear_getD (ws : List WorkerPhaseSt)
    (h : ∀ w ∈ ws, w.stoneWallTriggered = false) (i : Nat) :
    (ws.getD i default).stoneWallTriggered = false := by
  by_cases hi : i < ws.length
  · exact h _ (getD_mem ws i hi)
  · rw [getD_of_length_le ws i (Nat.le_of_not_lt hi)]; rfl

theorem getD_map_createStoneWallStats : ∀ (ws : List WorkerPhaseSt) (i : Nat),
    i < ws.length →
      (ws.map createStoneWallStats).getD i default =
        createStoneWallStats (ws.getD i default) := by
  intro ws
  induction ws with
  | nil => intro i hi; simp at hi
  | cons w ws ih =>
    intro i hi
    cases i with
    | zero => rfl
    | succ i => exact ih i (by simpa using hi)

theorem incNumWorkersDone_fired (s : PoolState) (r : Nat) :
    (incNumWorkersDone s r).2 = (s.shared.numWorkersDone + 1 == 1 &&
      !((setPhaseDone s.workerVec r).getD r default).stoneWallTriggered) := rfl

theorem incNumWorkersDone_shared (s : PoolState) (r : Nat) :
    (incNumWorkersDone s r).1.shared =
      ⟨s.shared.numWorkersDone + 1, s.shared.numWorkersDoneWithError⟩ := rfl

theorem incNumWorkersDone_vec (s : PoolState) (r : Nat) :
    (incNumWorkersDone s r).1.workerVec =
      if (incNumWorkersDone s r).2 then
        (setPhaseDone s.workerVec r).map createStoneWallStats
      else setPhaseDone s.workerVec r := rfl

/-- Once at least one worker has already reported done, no later completion
call can make the counter equal 1 again, so the stonewall capture loop never
runs again within the phase. -/
theorem foldl_completion_of_pos : ∀ (evs : List CompletionEv) (s : PoolState) (c : Nat),
    0 < s.shared.numWorkersDone →
    (evs.foldl completionStep (s, c)).1.shared.numWorkersDone =
      s.shared.numWorkersDone + countDone evs ∧
    (evs.foldl completionStep (s, c)).2 = c := by
  intro evs
  induction evs with
  | nil => intro s c _; simp [countDone]
  | cons ev evs ih =>
    intro s c h
    cases ev with
    | done r =>
      have hfired : (incNumWorkersDone s r).2 = false := by
        rw [incNumWorkersDone_fired]
        have h1 : (s.shared.numWorkersDone + 1 == 1) = false := by
          rw [beq_eq_false_iff_ne]; omega
        rw [h1, Bool.false_and]
      have hstep : completionStep (s, c) (.done r) = ((incNumWorkersDone s r).1, c) := by
        simp [completionStep, hfired]
      rw [List.foldl_cons, hstep]
      have hpos : 0 < (incNumWorkersDone s r).1.shared.numWorkersDone := by
        rw [incNumWorkersDone_shared]; exact Nat.succ_pos _
      obtain ⟨h1, h2⟩ := ih (incNumWorkersDone s r).1 c hpos
      refine ⟨?_, h2⟩
      rw [h1, incNumWorkersDone_shared]
      simp only [countDone, List.countP_cons]
      simp [countDone]
      omega
    | doneWithError r =>
      rw [List.foldl_cons]
      have hstep : completionStep (s, c) (.doneWithError r) =
          (incNumWorkersDoneWithError s r, c) := rfl
      rw [hstep]
      obtain ⟨h1, h2⟩ := ih (incNumWorkersDoneWithError s r) c h
      refine ⟨?_, h2⟩
      rw [h1]
      simp [incNumWorkersDoneWithError, WorkersSharedData.incNumWorkersDoneWithError,
        countDone, List.countP_cons]

/-- From a phase-start configuration (done counter zero, all stonewall latches
clear), the done counter ends up equal to the number of `incNumWorkersDone`
calls, and the stonewall capture loop runs exactly once as soon as there is at
least one such call. -/
theorem foldl_completion_of_start : ∀ (evs : List CompletionEv) (s : PoolState) (c : Nat),
    s.shared.numWorkersDone = 0 →
    (∀ w ∈ s.workerVec, w.stoneWallTriggered = false) →
    (evs.foldl completionStep (s, c)).1.shared.numWorkersDone = countDone evs ∧
    (evs.foldl completionStep (s, c)).2 = c + min (countDone evs) 1 := by
  intro evs
  induction evs with
  | nil => intro s c h _; simp [countDone, h]
  | cons ev evs ih =>
    intro s c h hclear
    cases ev with
    | done r =>
      have hfired : (incNumWorkersDone s r).2 = true := by
        rw [incNumWorkersDone_fired, h]
        have hlatch : ((setPhaseDone s.workerVec r).getD r default).stoneWallTriggered
            = false := by
          rw [setPhaseDone_latch]
          exact clear_getD s.workerVec hclear r
        rw [hlatch]
        rfl
      have hstep : completionStep (s, c) (.done r) = ((incNumWorkersDone s r).1, c + 1) := by
        simp [completionStep, hfired]
      rw [List.foldl_cons, hstep]
      have hpos : 0 < (incNumWorkersDone s r).1.shared.numWorkersDone := by
        rw [incNumWorkersDone_shared]; exact Nat.succ_pos _
      obtain ⟨h1, h2⟩ := foldl_completion_of_pos evs (incNumWorkersDone s r).1 (c + 1) hpos
      constructor
      · rw [h1, incNumWorkersDone_shared, h]
        simp [countDone, List.countP_cons]
        omega
      · rw [h2]
        simp [countDone, List.countP_cons]
    | doneWithError r =>
      rw [List.foldl_cons]
      have hstep : completionStep (s, c) (.doneWithError r) =
          (incNumWorkersDoneWithError s r, c) := rfl
      rw [hstep]
      obtain ⟨h1, h2⟩ := ih (incNumWorkersDoneWithError s r) c h
        (setPhaseDone_clear_mem s.workerVec r hclear)
      constructor
      · rw [h1]
        simp [countDone, List.countP_cons]
      · rw [h2]
        simp [countDone, List.countP_cons]

theorem countDone_pos_iff : ∀ evs : List CompletionEv,
    0 < countDone evs ↔ ∃ r, CompletionEv.done r ∈ evs := by
  intro evs
  rw [countDone, List.countP_pos_iff]
  constructor
  · rintro ⟨ev, hmem, hp⟩
    cases ev with
    | done r => exact ⟨r, hmem⟩
    | doneWithError r => simp at hp
  · rintro ⟨r, hmem⟩
    exact ⟨.done r, hmem, rfl⟩

/-- C1: over any phase execution (any number of workers completing in any
order, duplicates included), the stonewall capture loop of
`incNumWorkersDone` runs at most once; it runs exactly once as soon as some
worker calls `incNumWorkersDone`, and never when no worker does (never
before the first completion, never twice per phase). Moreover the capture
runs in a call exactly when that call makes `numWorkersDone` transition to
exactly 1 and the caller's phase-scoped `stoneWallTriggered` latch is not
already set. -/
theorem stoneWallStats_captured_once : ∀ (numWorkers : Nat) (evs : List CompletionEv),
    ((runPhase numWorkers evs).2 ≤ 1 ∧
      ((runPhase numWorkers evs).2 = 1 ↔ ∃ r, CompletionEv.done r ∈ evs)) ∧
    (∀ (s : PoolState) (callerRank : Nat),
      (incNumWorkersDone s callerRank).2 = true ↔
        s.shared.numWorkersDone = 0 ∧
          ((setPhaseDone s.workerVec callerRank).getD callerRank default).stoneWallTriggered
            = false) := by
  intro numWorkers evs
  have hstart :
      (phaseStartState numWorkers).shared.numWorkersDone = 0 := rfl
  have hclear : ∀ w ∈ (phaseStartState numWorkers).workerVec,
      w.stoneWallTriggered = false := by
    intro w hw
    have := List.eq_of_mem_replicate hw
    rw [this]
    rfl
  obtain ⟨h1, h2⟩ := foldl_completion_of_start evs (phaseStartState numWorkers) 0 hstart hclear
  constructor
  · rw [runPhase] at *
    constructor
    · rw [h2]; omega
    · rw [h2, ← countDone_pos_iff evs]
      omega
  · intro s callerRank
    rw [incNumWorkersDone_fired, Bool.and_eq_true, beq_iff_eq, Bool.not_eq_true']
    constructor
    · rintro ⟨ha, hb⟩
      exact ⟨by omega, hb⟩
    · rintro ⟨ha, hb⟩
      exact ⟨by omega, hb⟩

/-- C4: when an `incNumWorkersDone` call makes the done counter transition to
exactly 1 for a phase in which no stonewall state has been touched yet, the
capture loop runs, and a `StoneWallStats` snapshot is granted exactly to the
workers that have not yet finished the phase at that moment — every still
running worker and only those (the caller, having just finished, and any
worker that already completed with error get none). -/
theorem stoneWall_covers_running_workers (s : PoolState) (callerRank : Nat)
    (hcount : s.shared.numWorkersDone = 0)
    (hclear : ∀ w ∈ s.workerVec,
      w.stoneWallTriggered = false ∧ w.hasStoneWallStats = false) :
    (incNumWorkersDone s callerRank).2 = true ∧
    ∀ i, i < s.workerVec.length →
      (((incNumWorkersDone s callerRank).1.workerVec.getD i default).hasStoneWallStats = true ↔
        ((setPhaseDone s.workerVec callerRank).getD i default).phaseDone = false) := by
  have hlatchclear : ∀ w ∈ s.workerVec, w.stoneWallTriggered = false :=
    fun w hw => (hclear w hw).1
  have hfired : (incNumWorkersDone s callerRank).2 = true := by
    rw [incNumWorkersDone_fired, hcount]
    rw [setPhaseDone_latch, clear_getD s.workerVec hlatchclear callerRank]
    rfl
  refine ⟨hfired, ?_⟩
  intro i hi
  rw [incNumWorkersDone_vec, hfired, if_pos rfl]
  have hlen : i < (setPhaseDone s.workerVec callerRank).length := by
    rw [setPhaseDone_length]; exact hi
  rw [getD_map_createStoneWallStats _ i hlen]
  have hlatch : ((setPhaseDone s.workerVec callerRank).getD i default).stoneWallTriggered
      = false := by
    rw [setPhaseDone_latch]; exact clear_getD s.workerVec hlatchclear i
  have hstats : ((setPhaseDone s.workerVec callerRank).getD i default).hasStoneWallStats
      = false := by
    rw [setPhaseDone_stats]
    by_cases hlt : i < s.workerVec.length
    · exact (hclear _ (getD_mem s.workerVec i hlt)).2
    · rw [getD_of_length_le s.workerVec i (Nat.le_of_not_lt hlt)]; rfl
  rw [createStoneWallStats, hlatch, Bool.false_or]
  cases hdone : ((setPhaseDone s.workerVec callerRank).getD i default).phaseDone
  · rw [if_neg (by simp)]
    simp
  · rw [if_pos rfl, hstats]
    simp

/-- Witnessing C4 on a pool of three workers where worker 2 has already
finished (with error) and worker 0 reports done first: capture fires and
exactly worker 1 — the only worker still running — receives a snapshot. -/
theorem stoneWall_covers_running_workers_witness :
    (incNumWorkersDone ⟨⟨0, 1⟩, [default, default, ⟨true, false, false⟩]⟩ 0).2 = true ∧
    ∀ i, i < (PoolState.workerVec
        ⟨⟨0, 1⟩, [default, default, ⟨true, false, false⟩]⟩).length →
      (((incNumWorkersDone ⟨⟨0, 1⟩, [default, default, ⟨true, false, false⟩]⟩ 0).1.workerVec.getD
          i default).hasStoneWallStats = true ↔
        ((setPhaseDone (PoolState.workerVec
            ⟨⟨0, 1⟩, [default, default, ⟨true, false, false⟩]⟩) 0).getD i default).phaseDone
          = false) :=
  stoneWall_covers_running_workers
    ⟨⟨0, 1⟩, [default, default, ⟨true, false, false⟩]⟩ 0 rfl (by decide)

/-- C7: `incNumWorkersDoneWithError` records an error completion and nothing
else: as a phase step it never increments the capture count (it never attempts
a stonewall capture, even as the first completion of a phase), it increments
only the error-completion counter, leaves `numWorkersDone` unchanged, and
leaves every worker's stonewall latch and snapshot state unchanged. -/
theorem incNumWorkersDoneWithError_frame : ∀ (s : PoolState) (c : Nat) (callerRank : Nat),
    completionStep (s, c) (.doneWithError callerRank) =
      (incNumWorkersDoneWithError s callerRank, c) ∧
    (incNumWorkersDoneWithError s callerRank).shared.numWorkersDoneWithError =
      s.shared.numWorkersDoneWithError + 1 ∧
    (incNumWorkersDoneWithError s callerRank).shared.numWorkersDone =
      s.shared.numWorkersDone ∧
    ∀ i : Nat,
      ((incNumWorkersDoneWithError s callerRank).workerVec.getD i default).stoneWallTriggered =
        (s.workerVec.getD i default).stoneWallTriggered ∧
      ((incNumWorkersDoneWithError s callerRank).workerVec.getD i default).hasStoneWallStats =
        (s.workerVec.getD i default).hasStoneWallStats := by
  intro s c callerRank
  exact ⟨rfl, rfl, rfl, fun i =>
    ⟨setPhaseDone_latch s.workerVec callerRank i, setPhaseDone_stats s.workerVec callerRank i⟩⟩

/-- C3 fails on the code: with two workers, worker 0 calling
`incNumWorkersDone` twice for the same phase makes `checkWorkersDone` report
`numWorkersDone == numWorkers` although worker 1 never completed — the
counters are plain increments with no per-worker, per-phase deduplication, so
the claimed equivalence with "every worker called exactly once" is false. -/
theorem checkWorkersDone_not_idempotent :
    ¬(checkWorkersDone 2 (runPhase 2 [.done 0, .done 0]).1 = true ↔
        ∀ r, r < 2 → countCallsBy r [CompletionEv.done 0, CompletionEv.done 0] = 1) := by
  decide

/-- C3 amended: completion counting is by plain increments, so
`numWorkersDone` equals the number of `incNumWorkersDone` calls made during
the phase (duplicate calls for the same phase double-count, error completions
go to the separate error counter), and `checkWorkersDone` reports
`numWorkersDone == numWorkers` exactly when that call count equals
`numWorkers`. -/
theorem checkWorkersDone_counts_calls : ∀ (numWorkers : Nat) (evs : List CompletionEv),
    (runPhase numWorkers evs).1.shared.numWorkersDone = countDone evs ∧
    (checkWorkersDone numWorkers (runPhase numWorkers evs).1 = true ↔
      countDone evs = numWorkers) := by
  intro numWorkers evs
  have hclear : ∀ w ∈ (phaseStartState numWorkers).workerVec,
      w.stoneWallTriggered = false := by
    intro w hw
    rw [List.eq_of_mem_replicate hw]
    rfl
  obtain ⟨h1, _⟩ := foldl_completion_of_start evs (phaseStartState numWorkers) 0 rfl hclear
  have h1' : (runPhase numWorkers evs).1.shared.numWorkersDone = countDone evs := h1
  refine ⟨h1', ?_⟩
  rw [checkWorkersDone, beq_iff_eq, h1']

/- ===== NUMA binding (Worker.cpp) ===== -/

/-- The environment `Worker::applyNumaBinding` consults: the configured NUMA
zone list `progArgs->getNumaZonesVec()`, whether `NumaTk::isNumaInfoAvailable`
reports NUMA support, and the outcome of the external primitive
`NumaTk::bindToNumaZone` for each zone (`true` = binding succeeds, `false` =
it throws `ProgException`). -/
structure NumaEnv where
  numaZonesVec : List Int
  numaInfoAvailable : Bool
  bindSucceeds : Int → Bool

/-- What a call to `applyNumaBinding` does: nothing (returned without
binding), bound the calling thread to a zone, or threw `WorkerException`
(the `ProgException` from a failed binding, rethrown as a fatal worker-level
error rather than swallowed). -/
inductive NumaBindOutcome
  | noBinding
  | bound (zone : Int)
  | workerError (zone : Int)
deriving Repr, DecidableEq

/-- `Worker::applyNumaBinding`: returns immediately when the configured zone
list is empty or NUMA info is unavailable; otherwise selects
`numaZonesVec[workerRank % numaZonesVec.size()]` and requests binding to it,
rethrowing a binding failure as `WorkerException`. -/
def applyNumaBinding (env : NumaEnv) (workerRank : Nat) : NumaBindOutcome :=
  if env.numaZonesVec.isEmpty || !env.numaInfoAvailable then .noBinding
  else
    let zoneNum := env.numaZonesVec.getD (workerRank % env.numaZonesVec.length) 0
    if env.bindSucceeds zoneNum then .bound zoneNum else .workerError zoneNum

/-- C6: `applyNumaBinding` is a no-op whenever the configured NUMA zone list
is empty or NUMA support is unavailable; otherwise it requests binding to the
zone at index `workerRank % numaZonesVec.length`, and a binding failure
surfaces as the fatal worker-level error outcome instead of being swallowed
into a no-op or a successful binding. -/
theorem applyNumaBinding_spec : ∀ (env : NumaEnv) (workerRank : Nat),
    ((env.numaZonesVec = [] ∨ env.numaInfoAvailable = false) →
      applyNumaBinding env workerRank = .noBinding) ∧
    (env.numaZonesVec ≠ [] → env.numaInfoAvailable = true →
      applyNumaBinding env workerRank =
        (if env.bindSucceeds
              (env.numaZonesVec.getD (workerRank % env.numaZonesVec.length) 0)
          then .bound (env.numaZonesVec.getD (workerRank % env.numaZonesVec.length) 0)
          else .workerError
            (env.numaZonesVec.getD (workerRank % env.numaZonesVec.length) 0))) := by
  intro env workerRank
  constructor
  · rintro (hempty | hnuma)
    · rw [applyNumaBinding, if_pos]
      rw [hempty]
      rfl
    · rw [applyNumaBinding, if_pos]
      rw [hnuma]
      simp
  · intro hne hnuma
    rw [applyNumaBinding, if_neg]
    simp [hnuma, List.isEmpty_iff, hne]

/- ===== Per-worker file range partitioning (LocalWorker) ===== -/

/-- Modelled from the spec: `LocalWorker::getPhaseFileRange` is declared in
LocalWorker.h but its body is not under src/. Per the spec it "computes the
byte sub-range this worker is responsible for", the workers partitioning the
overall configured range `[rangeStart, rangeStart + rangeLen)` by rank
without overlap: each worker's sub-range is `rangeLen / numWorkers` bytes
long and starts at `rangeStart + workerRank * (rangeLen / numWorkers)`, the
last rank extending to the end of the overall range to absorb the division
remainder. Returns `(outFileRangeStart, outFileRangeLen)`. -/
def getPhaseFileRange (rangeStart rangeLen numWorkers workerRank : Nat) : Nat × Nat :=
  let perWorkerLen := rangeLen / numWorkers
  let outFileRangeStart := rangeStart + workerRank * perWorkerLen
  let outFileRangeLen :=
    if workerRank = numWorkers - 1 then rangeLen - workerRank * perWorkerLen
    else perWorkerLen
  (outFileRangeStart, outFileRangeLen)

/-- Byte `x` lies in the half-open sub-range described by `(start, len)`. -/
def inFileRange (p : Nat × Nat) (x : Nat) : Prop := p.1 ≤ x ∧ x < p.1 + p.2

instance (p : Nat × Nat) (x : Nat) : Decidable (inFileRange p x) :=
  inferInstanceAs (Decidable (p.1 ≤ x ∧ x < p.1 + p.2))

theorem getPhaseFileRange_disjoint_lt (rangeStart rangeLen numWorkers r s x : Nat)
    (hrs : r < s) (hs : s < numWorkers)
    (h1 : inFileRange (getPhaseFileRange rangeStart rangeLen numWorkers r) x)
    (h2 : inFileRange (getPhaseFileRange rangeStart rangeLen numWorkers s) x) :
    False := by
  obtain ⟨hr1, hr2⟩ := h1
  obtain ⟨hs1, hs2⟩ := h2
  simp only [getPhaseFileRange, inFileRange] at hr2 hs1
  have hrne : ¬(r = numWorkers - 1) := by omega
  rw [if_neg hrne] at hr2
  have hmul : (r + 1) * (rangeLen / numWorkers) ≤ s * (rangeLen / numWorkers) :=
    Nat.mul_le_mul_right _ hrs
  have hsucc : (r + 1) * (rangeLen / numWorkers) =
      r * (rangeLen / numWorkers) + rangeLen / numWorkers := Nat.succ_mul r _
  omega

/-- C8: for any worker count `numWorkers ≥ 1` and overall byte range
`[rangeStart, rangeStart + rangeLen)` with `rangeLen ≥ numWorkers`, the
per-worker sub-ranges computed by `getPhaseFileRange` are pairwise disjoint
and their union is exactly the overall range. -/
theorem getPhaseFileRange_partition (rangeStart rangeLen numWorkers : Nat)
    (hN : 1 ≤ numWorkers) (hL : numWorkers ≤ rangeLen) :
    (∀ r s x, r < numWorkers → s < numWorkers → r ≠ s →
      ¬(inFileRange (getPhaseFileRange rangeStart rangeLen numWorkers r) x ∧
        inFileRange (getPhaseFileRange rangeStart rangeLen numWorkers s) x)) ∧
    (∀ x, (rangeStart ≤ x ∧ x < rangeStart + rangeLen) ↔
      ∃ r, r < numWorkers ∧
        inFileRange (getPhaseFileRange rangeStart rangeLen numWorkers r) x) := by
  have hq : 0 < rangeLen / numWorkers := (Nat.one_le_div_iff (by omega)).mpr hL
  have hNq : rangeLen / numWorkers * numWorkers ≤ rangeLen :=
    Nat.div_mul_le_self rangeLen numWorkers
  constructor
  · intro r s x hr hs hne hboth
    rcases Nat.lt_or_ge r s with hlt | hge
    · exact getPhaseFileRange_disjoint_lt rangeStart rangeLen numWorkers r s x
        hlt hs hboth.1 hboth.2
    · have hlt : s < r := by omega
      exact getPhaseFileRange_disjoint_lt rangeStart rangeLen numWorkers s r x
        hlt hr hboth.2 hboth.1
  · intro x
    constructor
    · rintro ⟨hx1, hx2⟩
      by_cases hcase : x - rangeStart < (numWorkers - 1) * (rangeLen / numWorkers)
      · refine ⟨(x - rangeStart) / (rangeLen / numWorkers), ?_, ?_, ?_⟩
        · have := (Nat.div_lt_iff_lt_mul hq).mpr hcase
          omega
        · simp only [getPhaseFileRange]
          have := Nat.div_mul_le_self (x - rangeStart) (rangeLen / numWorkers)
          omega
        · simp only [getPhaseFileRange]
          have hrne : ¬((x - rangeStart) / (rangeLen / numWorkers) = numWorkers - 1) := by
            have := (Nat.div_lt_iff_lt_mul hq).mpr hcase
            omega
          rw [if_neg hrne]
          have hdm : rangeLen / numWorkers * ((x - rangeStart) / (rangeLen / numWorkers)) +
              (x - rangeStart) % (rangeLen / numWorkers) = x - rangeStart :=
            Nat.div_add_mod _ _
          have hmod : (x - rangeStart) % (rangeLen / numWorkers) < rangeLen / numWorkers :=
            Nat.mod_lt _ hq
          have hcomm : rangeLen / numWorkers * ((x - rangeStart) / (rangeLen / numWorkers)) =
              (x - rangeStart) / (rangeLen / numWorkers) * (rangeLen / numWorkers) :=
            Nat.mul_comm _ _
          omega
      · refine ⟨numWorkers - 1, by omega, ?_, ?_⟩
        · simp only [getPhaseFileRange]
          omega
        · simp only [getPhaseFileRange]
          rw [if_pos trivial]
          have hle : (numWorkers - 1) * (rangeLen / numWorkers) ≤
              numWorkers * (rangeLen / numWorkers) :=
            Nat.mul_le_mul_right _ (by omega)
          have hcomm : numWorkers * (rangeLen / numWorkers) =
              rangeLen / numWorkers * numWorkers := Nat.mul_comm _ _
          omega
    · rintro ⟨r, hrN, hin1, hin2⟩
      simp only [getPhaseFileRange] at hin1 hin2
      refine ⟨by omega, ?_⟩
      by_cases hrlast : r = numWorkers - 1
      · rw [if_pos hrlast] at hin2
        have hle : (numWorkers - 1) * (rangeLen / numWorkers) ≤
            numWorkers * (rangeLen / numWorkers) :=
          Nat.mul_le_mul_right _ (by omega)
        have hcomm : numWorkers * (rangeLen / numWorkers) =
            rangeLen / numWorkers * numWorkers := Nat.mul_comm _ _
        subst hrlast
        omega
      · rw [if_neg hrlast] at hin2
        have hsucc : (r + 1) * (rangeLen / numWorkers) =
            r * (rangeLen / numWorkers) + rangeLen / numWorkers := Nat.succ_mul r _
        have hle : (r + 1) * (rangeLen / numWorkers) ≤
            numWorkers * (rangeLen / numWorkers) :=
          Nat.mul_le_mul_right _ (by omega)
        have hcomm : numWorkers * (rangeLen / numWorkers) =
            rangeLen / numWorkers * numWorkers := Nat.mul_comm _ _
        omega

/-- Witnessing C8 at the spec's end-to-end scenario: 4 workers over the range
`[0, 4096)`: the four sub-ranges are pairwise disjoint and cover exactly
`[0, 4096)`. -/
theorem getPhaseFileRange_partition_witness :
    (∀ r s x, r < 4 → s < 4 → r ≠ s →
      ¬(inFileRange (getPhaseFileRange 0 4096 4 r) x ∧
        inFileRange (getPhaseFileRange 0 4096 4 s) x)) ∧
    (∀ x, (0 ≤ x ∧ x < 0 + 4096) ↔
      ∃ r, r < 4 ∧ inFileRange (getPhaseFileRange 0 4096 4 r) x) :=
  getPhaseFileRange_partition 0 4096 4 (by decide) (by decide)

/- ===== Mounted-device safety check (test_blockdev_rand.sh) ===== -/

/-- Result of `check_mounted` in the block-device test script: either control
falls through to running the benchmark command, or the script prints the
"Refusing write test" error for the offending device and does `exit 1`. -/
inductive MountCheckResult
  | proceed
  | refuseWrite (dev : String)
deriving Repr, DecidableEq

/-- The script's `grep "^${FILENAMES[$i]} " /proc/mounts` applied to one line:
the resolved device path, followed by a space, anchored at the start of the
line (the device is the first whitespace-delimited field of a mounts line). -/
def devLineMatch (dev line : String) : Bool := (dev ++ " ").isPrefixOf line

/-- Whether `grep "^dev " /proc/mounts` finds a match, with the pseudo-file
`/proc/mounts` modelled as its list of lines. -/
def grepMounted (dev : String) (procMounts : List String) : Bool :=
  procMounts.any (devLineMatch dev)

/-- The `for` loop of `check_mounted` over the resolved `FILENAMES`: the first
device that greps in `/proc/mounts` triggers the error exit, otherwise the
loop falls through. -/
def checkMountedLoop (procMounts : List String) : List String → MountCheckResult
  | [] => .proceed
  | f :: rest =>
    if grepMounted f procMounts then .refuseWrite f
    else checkMountedLoop procMounts rest

/-- `check_mounted` from test_blockdev_rand.sh, run before the benchmark
command: for a pure read test (`READPERCENT -eq 100`) it returns at once,
never looking at `/proc/mounts`; otherwise (the script only admits 0 or 100)
it scans the resolved device paths against `/proc/mounts`. -/
def check_mounted (readPercent : Nat) (filenames procMounts : List String) :
    MountCheckResult :=
  if readPercent = 100 then .proceed
  else checkMountedLoop procMounts filenames

theorem checkMountedLoop_proceed_iff : ∀ (procMounts filenames : List String),
    checkMountedLoop procMounts filenames = .proceed ↔
      ∀ f ∈ filenames, grepMounted f procMounts = false := by
  intro procMounts filenames
  induction filenames with
  | nil => simp [checkMountedLoop]
  | cons f rest ih =>
    by_cases hf : grepMounted f procMounts
    · simp [checkMountedLoop, hf]
    · simp only [checkMountedLoop, if_neg hf, ih]
      simp only [Bool.not_eq_true] at hf
      simp [hf]

/-- C10: the mounted-device safety check applies only to write tests. For a
pure read test (READPERCENT = 100) `check_mounted` proceeds no matter what
`/proc/mounts` contains (it returns before inspecting it). For a write test
(READPERCENT = 0) it exits with the refuse-write error exactly when some
resolved device path, followed by a space, is a prefix of some line of
`/proc/mounts`; and any device it refuses on is one of the resolved devices,
found mounted. -/
theorem check_mounted_spec : ∀ (filenames procMounts : List String),
    check_mounted 100 filenames procMounts = .proceed ∧
    ((∃ f ∈ filenames, ∃ l ∈ procMounts, devLineMatch f l = true) ↔
      ∃ dev, check_mounted 0 filenames procMounts = .refuseWrite dev) ∧
    (∀ dev, check_mounted 0 filenames procMounts = .refuseWrite dev →
      dev ∈ filenames ∧ grepMounted dev procMounts = true) := by
  intro filenames procMounts
  refine ⟨rfl, ?_, ?_⟩
  · rw [check_mounted, if_neg (by omega)]
    constructor
    · rintro ⟨f, hf, l, hl, hmatch⟩
      have hgrep : grepMounted f procMounts = true := by
        rw [grepMounted, List.any_eq_true]
        exact ⟨l, hl, hmatch⟩
      have : checkMountedLoop procMounts filenames ≠ .proceed := by
        rw [Ne, checkMountedLoop_proceed_iff]
        intro hall
        rw [hall f hf] at hgrep
        cases hgrep
      cases hres : checkMountedLoop procMounts filenames with
      | proceed => exact absurd hres this
      | refuseWrite dev => exact ⟨dev, rfl⟩
    · rintro ⟨dev, hdev⟩
      have : checkMountedLoop procMounts filenames ≠ .proceed := by
        rw [hdev]; intro h; cases h
      rw [Ne, checkMountedLoop_proceed_iff] at this
      push_neg at this
      obtain ⟨f, hf, hgrep⟩ := this
      simp only [Bool.not_eq_false] at hgrep
      rw [grepMounted, List.any_eq_true] at hgrep
      obtain ⟨l, hl, hmatch⟩ := hgrep
      exact ⟨f, hf, l, hl, hmatch⟩
  · intro dev
    rw [check_mounted, if_neg (by omega)]
    induction filenames with
    | nil => intro h; cases h
    | cons f rest ih =>
      by_cases hf : grepMounted f procMounts
      · rw [checkMountedLoop, if_pos hf]
        intro h
        cases h
        exact ⟨List.mem_cons_self _ _, hf⟩
      · rw [checkMountedLoop, if_neg hf]
        intro h
        obtain ⟨hmem, hgrep⟩ := ih h
        exact ⟨List.mem_cons_of_mem _ hmem, hgrep⟩
